import Mathlib

/-!
# Verification of the asianloopnews fetch/filter/dedupe/rank pipeline

Shallow embedding of `scripts/fetch-news.mjs` (both script revisions present
in the repository: the curated-RSS revision and the Google-News "safe mode"
revision).  JavaScript strings are modelled as Lean `String`s (the inputs of
interest are ASCII), timestamps as `Int` millisecond values (a well-formed
ISO-8601 date string is represented by the integer it parses to), and the
platform pieces the scripts rely on — the WHATWG `URL` class and the regular
expression literals — are modelled as executable Lean functions for exactly
the constructs those scripts use (alternations of literal phrases, `\b` word
boundaries, `\s*`/`\s+` whitespace runs and optional single characters;
`scheme://host/path?query` URLs plus bare `scheme:rest` URLs).
-/

namespace AsianloopNews

/-! ## JavaScript string primitives -/

/-- JavaScript `\s` / `.trim()` whitespace, restricted to the ASCII range. -/
def isWs (c : Char) : Bool :=
  c == ' ' || c == '\t' || c == '\n' || c == '\r' || c == '\x0b' || c == '\x0c'

/-- JavaScript `\w` word characters (`[A-Za-z0-9_]`), determining `\b`. -/
def isWordChar (c : Char) : Bool :=
  (c ≥ 'a' && c ≤ 'z') || (c ≥ 'A' && c ≤ 'Z') || (c ≥ '0' && c ≤ '9') || c == '_'

/-- `String.prototype.trim()`. -/
def jsTrim (cs : List Char) : List Char :=
  ((cs.dropWhile isWs).reverse.dropWhile isWs).reverse

/-- `.replace(/\s+/g, " ")`: collapse every whitespace run to one space.
The boolean argument records whether the previous character was whitespace. -/
def collapseAux : Bool → List Char → List Char
  | _, [] => []
  | prevWs, c :: rest =>
    if isWs c then
      if prevWs then collapseAux true rest else ' ' :: collapseAux true rest
    else c :: collapseAux false rest

def collapseWs (cs : List Char) : List Char := collapseAux false cs

/-- `.toLowerCase()` on ASCII text. -/
def lowerCs (cs : List Char) : List Char := cs.map Char.toLower

/-! ## Regular-expression model

Every regex in the scripts is an alternation of near-literal phrases.  A
phrase is a token sequence (literal text, an optional literal, or a
whitespace run), optionally anchored by `\b` on the left and/or right.
All phrases begin and end with word characters, so `\b` at the edges is
exactly "the neighbouring character, if any, is not a word character". -/

inductive Tok where
  | lit (cs : List Char)
  | opt (cs : List Char)
  | ws0
  | ws1
deriving DecidableEq

structure Pat where
  toks : List Tok
  lb : Bool
  rb : Bool
deriving DecidableEq

/-- Drop `p` from the front of `s` when it is a prefix. -/
def dropLit : List Char → List Char → Option (List Char)
  | [], s => some s
  | _ :: _, [] => none
  | p :: ps, c :: cs => if p == c then dropLit ps cs else none

/-- All suffixes obtained by removing zero or more leading whitespace chars. -/
def wsDrops : List Char → List (List Char)
  | [] => [[]]
  | c :: rest => (c :: rest) :: (if isWs c then wsDrops rest else [])

/-- All suffixes obtained by removing one or more leading whitespace chars. -/
def wsDrops1 : List Char → List (List Char)
  | [] => []
  | c :: rest => if isWs c then wsDrops rest else []

/-- Remainders of `s` after matching the token list at its front. -/
def matchToks : List Tok → List Char → List (List Char)
  | [], s => [s]
  | Tok.lit p :: ts, s =>
    match dropLit p s with
    | some r => matchToks ts r
    | none => []
  | Tok.opt p :: ts, s =>
    matchToks ts s ++
      (match dropLit p s with
       | some r => matchToks ts r
       | none => [])
  | Tok.ws0 :: ts, s => (wsDrops s).flatMap (matchToks ts)
  | Tok.ws1 :: ts, s => (wsDrops1 s).flatMap (matchToks ts)

/-- Does the pattern match starting exactly here?  `prev` is the character
just before this position (`none` at the start of the text). -/
def patHere (p : Pat) (prev : Option Char) (s : List Char) : Bool :=
  (if p.lb then
     match prev with
     | none => true
     | some c => !isWordChar c
   else true)
  && (matchToks p.toks s).any (fun rem =>
       if p.rb then
         match rem with
         | [] => true
         | c :: _ => !isWordChar c
       else true)

/-- Scan every position of the text for a match. -/
def patScan (p : Pat) (prev : Option Char) (s : List Char) : Bool :=
  patHere p prev s ||
    (match s with
     | [] => false
     | c :: rest => patScan p (some c) rest)

/-- `regex.test(s)` for an alternation of phrase patterns. -/
def testRx (ps : List Pat) (s : List Char) : Bool :=
  ps.any (fun p => patScan p none s)

/-- A single literal word/phrase wrapped in `\b...\b`. -/
def pW (w : String) : Pat := ⟨[Tok.lit w.data], true, true⟩

/-- A single literal phrase with no boundary anchors (plain substring). -/
def pS (w : String) : Pat := ⟨[Tok.lit w.data], false, false⟩

/-! ## WHATWG URL model

`new URL(s)` for the URL shapes the pipeline handles:
`scheme://[userinfo@]host[:port][/path][?query][#frag]` with a non-empty
host required for the special schemes (http, https, ws, wss, ftp), and
bare `scheme:rest` URLs (empty hostname).  Anything else throws, which
the model renders as `none`.  The hostname is lowercased; the pathname of
an authority-based URL always begins with `/`. -/

structure UrlM where
  hostname : String
  pathname : String
  query : String
deriving DecidableEq

def isSchemeStart (c : Char) : Bool :=
  (c ≥ 'a' && c ≤ 'z') || (c ≥ 'A' && c ≤ 'Z')

def isSchemeChar (c : Char) : Bool :=
  isSchemeStart c || (c ≥ '0' && c ≤ '9') || c == '+' || c == '-' || c == '.'

/-- Split off a `scheme:` head, returning (lowercased scheme, rest). -/
def splitScheme (cs : List Char) : Option (List Char × List Char) :=
  match cs with
  | [] => none
  | c :: _ =>
    if isSchemeStart c then
      let head := cs.takeWhile isSchemeChar
      let rest := cs.dropWhile isSchemeChar
      match rest with
      | ':' :: r => some (lowerCs head, r)
      | _ => none
    else none

def specialSchemes : List (List Char) :=
  ["http".data, "https".data, "ws".data, "wss".data, "ftp".data]

/-- Authority terminates at `/`, `?` or `#`. -/
def isAuthEnd (c : Char) : Bool := c == '/' || c == '?' || c == '#'

/-- Strip `userinfo@` (keep the part after the last `@`) and `:port`. -/
def hostOfAuthority (auth : List Char) : List Char :=
  let afterUser := (auth.reverse.takeWhile (fun c => c != '@')).reverse
  afterUser.takeWhile (fun c => c != ':')

/-- Split `rest` (everything after the authority) into pathname and query. -/
def pathQuery (rest : List Char) : List Char × List Char :=
  let beforeFrag := rest.takeWhile (fun c => c != '#')
  let path := beforeFrag.takeWhile (fun c => c != '?')
  let q := (beforeFrag.dropWhile (fun c => c != '?')).drop 1
  (path, q)

def parseURL (s : String) : Option UrlM :=
  match splitScheme s.data with
  | none => none
  | some (scheme, rest) =>
    match rest with
    | '/' :: '/' :: r =>
      let auth := r.takeWhile (fun c => !isAuthEnd c)
      let after := r.dropWhile (fun c => !isAuthEnd c)
      let host := lowerCs (hostOfAuthority auth)
      if host.isEmpty && specialSchemes.any (fun sp => sp == scheme) then none
      else
        let pq := pathQuery after
        some ⟨String.mk host,
              String.mk (if pq.1.isEmpty then ['/'] else pq.1),
              String.mk pq.2⟩
    | _ =>
      if specialSchemes.any (fun sp => sp == scheme) then none
      else
        let pq := pathQuery rest
        some ⟨"", String.mk pq.1, String.mk pq.2⟩

/-- Percent-decoding with `+` as space (URLSearchParams value decoding,
ASCII range). -/
def hexVal (c : Char) : Option Nat :=
  if c ≥ '0' && c ≤ '9' then some (c.toNat - '0'.toNat)
  else if c ≥ 'a' && c ≤ 'f' then some (c.toNat - 'a'.toNat + 10)
  else if c ≥ 'A' && c ≤ 'F' then some (c.toNat - 'A'.toNat + 10)
  else none

def pctDecode : List Char → List Char
  | [] => []
  | '+' :: r => ' ' :: pctDecode r
  | '%' :: a :: b :: r2 =>
    (match hexVal a, hexVal b with
     | some ha, some hb => Char.ofNat (16 * ha + hb) :: pctDecode r2
     | _, _ => '%' :: pctDecode (a :: b :: r2))
  | c :: r => c :: pctDecode r

/-- Split a list on a separator character. -/
def splitOnChar (sep : Char) (cs : List Char) : List (List Char) :=
  match cs with
  | [] => [[]]
  | c :: rest =>
    let r := splitOnChar sep rest
    if c == sep then [] :: r
    else
      match r with
      | [] => [[c]]
      | h :: t => (c :: h) :: t

/-- `URLSearchParams` pairs of a raw query string. -/
def queryPairs (q : String) : List (String × String) :=
  (splitOnChar '&' q.data).filterMap (fun piece =>
    if piece.isEmpty then none
    else
      let name := piece.takeWhile (fun c => c != '=')
      let value := (piece.dropWhile (fun c => c != '=')).drop 1
      some (String.mk (pctDecode name), String.mk (pctDecode value)))

def spHas (u : UrlM) (k : String) : Bool :=
  (queryPairs u.query).any (fun p => p.1 == k)

def spGet (u : UrlM) (k : String) : Option String :=
  ((queryPairs u.query).find? (fun p => p.1 == k)).map (fun p => p.2)

/-- Substring containment (`String.prototype.includes`). -/
def listContainsSub (needle : List Char) : List Char → Bool
  | [] => (dropLit needle []).isSome
  | c :: rest => (dropLit needle (c :: rest)).isSome || listContainsSub needle rest

/-! ## fetch-news.mjs helpers (`unwrapGoogle`, `hostOf`, `norm`) -/

/-- `unwrapGoogle(href)` — Google-News revision, lines 251–259. -/
def unwrapGoogle (href : String) : String :=
  match parseURL href with
  | none => href
  | some u =>
    if listContainsSub "news.google.com".data u.hostname.data && spHas u "url" then
      (spGet u "url").getD href
    else href

/-- `hostOf(url)` — strip one leading `www.` from the hostname; empty string
when URL construction throws. -/
def hostOf (url : String) : String :=
  match parseURL url with
  | none => ""
  | some u =>
    match dropLit "www.".data u.hostname.data with
    | some rest => String.mk rest
    | none => u.hostname

/-- `norm` — trim, lowercase, collapse whitespace, cap at 180 chars. -/
def normT (s : String) : String :=
  String.mk ((collapseWs (lowerCs (jsTrim s.data))).take 180)

/-! ## Relevance lexicons

Transcriptions of the regex literals of `fetch-news.mjs`.  Each alternation
becomes a list of `Pat`s; `(?:a|b)` groups are expanded, `X?` becomes either
an `opt` token or expanded alternatives, `\\s*`/`\\s+` become `ws0`/`ws1`. -/

/-- `RX_KEEP` (curated revision, line 38). -/
def rxKeep : List Pat :=
  [pW "custody transfer", pW "fiscal", pW "mpms", pW "oiml",
   ⟨[Tok.lit "r".data, Tok.opt "-".data, Tok.lit "117".data], true, true⟩,
   ⟨[Tok.lit "iso".data, Tok.ws0, Tok.lit "17025".data], true, true⟩,
   pW "metering", pW "meters", pW "meter",
   ⟨[Tok.lit "flow".data, Tok.opt " ".data, Tok.lit "meter".data], true, true⟩,
   pW "flowmeter", pW "prover", pW "meter proving", pW "pipe prover", pW "lact",
   pW "lease automatic custody transfer",
   pW "metering skid", pW "metering station",
   pW "ultrasonic", pW "coriolis", pW "turbine meter",
   pW "orifice plate", pW "orifice meter",
   pW "flow computer", pW "gas chromatograph", pW "calibration", pW "metrology"]

/-- `RX_DROP` (curated revision, line 39) = `RX_BAD` (safe-mode revision,
line 281): the finance/legal "custody" disambiguation lexicon. -/
def rxDrop : List Pat :=
  [pW "etf", pW "crypto", pW "bitcoin", pW "token",
   pW "security", pW "securities",
   pW "custody bank", pW "asset management", pW "child custody",
   pW "police custody", pW "detention", pW "crime"]

/-- `RX_UTILITY` (line 40) = `RX_BAD_UTILITY` (line 276). -/
def rxUtility : List Pat :=
  ["electric", "electricity", "power", "smart", "water"].map (fun w =>
    ⟨[Tok.lit w.data, Tok.ws1, Tok.lit "meter".data, Tok.opt "s".data], true, true⟩)

/-- Boost regex `/custody transfer|fiscal|mpms|oiml|iso\\s*17025/i` (line 48). -/
def rxStrongV1 : List Pat :=
  [pS "custody transfer", pS "fiscal", pS "mpms", pS "oiml",
   ⟨[Tok.lit "iso".data, Tok.ws0, Tok.lit "17025".data], false, false⟩]

/-- Boost regex `/prover|meter proving|lact/i` (curated revision, line 49). -/
def rxProving : List Pat := [pS "prover", pS "meter proving", pS "lact"]

/-- Boost regex `/meter proving|pipe prover|lact/` (safe-mode revision,
line 294). -/
def rxProvingSafe : List Pat := [pS "meter proving", pS "pipe prover", pS "lact"]

/-- Boost regex `/ultrasonic|coriolis|turbine|orifice|flow computer|gas
chromatograph/i` (lines 50 and 295). -/
def rxTech : List Pat :=
  [pS "ultrasonic", pS "coriolis", pS "turbine", pS "orifice",
   pS "flow computer", pS "gas chromatograph"]

/-- `RX_MEAS` (safe-mode revision, line 274). -/
def rxMeas : List Pat :=
  [⟨[Tok.lit "flow".data, Tok.opt " ".data, Tok.lit "meter".data], true, true⟩,
   pW "flowmeter",
   pW "metering", pW "meters", pW "meter",
   pW "prover",
   pS "meter proving", pS "pipe prover",
   pW "lact",
   pS "lease automatic custody transfer",
   pW "metering skid", pW "metering station",
   pS "ultrasonic flow", pS "ultrasonic meter", pS "ultrasonic measurement",
   pS "coriolis flow", pS "coriolis meter", pS "coriolis measurement",
   pS "turbine meter", pS "orifice plate", pS "orifice meter",
   pS "flow computer", pS "gas chromatograph", pS "calibration lab", pS "metrology"]

/-- `RX_CTX_STRONG` (line 278). -/
def rxCtxStrong : List Pat :=
  [pW "custody transfer", pW "fiscal", pW "mpms", pS "oiml",
   ⟨[Tok.lit "r".data, Tok.opt "-".data, Tok.lit "117".data], false, false⟩,
   ⟨[Tok.lit "iso".data, Tok.ws0, Tok.lit "17025".data], true, true⟩]

/-- `RX_CTX_WEAK` (line 279). -/
def rxCtxWeak : List Pat :=
  [pW "lng", pW "oil", pW "gas", pW "terminal", pW "pipeline", pW "proving",
   pW "calibration", pW "traceability", pW "traceabilities", pW "uncertainty"]

/-- `/custody transfer/` (line 293). -/
def rxCustody : List Pat := [pS "custody transfer"]

/-- Category regexes of `guessCategory` (lines 83–89 and 264–271). -/
def rxCatStd : List Pat :=
  [pW "mpms", pW "oiml", pS "r-117",
   ⟨[Tok.lit "iso".data, Tok.ws0, Tok.lit "17025".data], true, true⟩]

def rxCatTech : List Pat :=
  [pW "prover", pW "lact", pW "ultrasonic", pW "coriolis", pW "turbine",
   pW "orifice", pW "flowmeter", pW "flow computer", pW "gas chromatograph"]

def rxCatProj : List Pat :=
  [pW "contract", pW "awarded", pW "terminal", pW "project", pW "tender"]

def rxCatRes1 : List Pat := [pW "calibration", pW "metrology", pW "lab"]

def rxCatRes2 : List Pat :=
  [pW "calibration", pW "metrology", pW "lab", pW "traceability", pW "traceabilities"]

/-! ## Scoring and categorisation -/

/-- The text a scorer sees: `((title||"") + " " + (summary||"")).toLowerCase()`. -/
def scoreInput (title summary : String) : List Char :=
  lowerCs (title ++ " " ++ summary).data

/-- `relevanceScore` (curated revision, lines 42–52). -/
def relevanceScore (title summary : String) : Int :=
  let t := scoreInput title summary
  if testRx rxDrop t then -9999
  else if !testRx rxKeep t then -999
  else
    let s1 : Int := 1
    let s2 := if testRx rxUtility t then s1 - 2 else s1
    let s3 := if testRx rxStrongV1 t then s2 + 4 else s2
    let s4 := if testRx rxProving t then s3 + 2 else s3
    if testRx rxTech t then s4 + 1 else s4

/-- `MIN_SCORE` (safe-mode revision, line 161). -/
def minScore : Int := 0

/-- `MAX_ITEMS` (lines 10 and 159). -/
def maxItems : Nat := 30

/-- `FRESH_DAYS` (line 158). -/
def freshDays : Int := 45

/-- `scoreText` (safe-mode revision, lines 283–298). -/
def scoreText (title summary : String) : Int :=
  let t := scoreInput title summary
  if !testRx rxMeas t then -999
  else if testRx rxDrop t then -9999
  else if testRx rxUtility t then -50
  else
    let s0 : Int := 0
    let s1 := if testRx rxCtxStrong t then s0 + 6 else s0
    let s2 := if testRx rxCtxWeak t then s1 + 3 else s1
    let s3 := if testRx rxCustody t then s2 + 2 else s2
    let s4 := if testRx rxProvingSafe t then s3 + 2 else s3
    if testRx rxTech t then s4 + 1 else s4

/-- `guessCategory` (curated revision, lines 82–89). -/
def guessCategory1 (title : String) : String :=
  let t := lowerCs title.data
  if testRx rxCatStd t then "Standards"
  else if testRx rxCatTech t then "Technology"
  else if testRx rxCatProj t then "Projects"
  else if testRx rxCatRes1 t then "Research"
  else "Update"

/-- `guessCategory` (safe-mode revision, lines 264–271). -/
def guessCategory2 (title : String) : String :=
  let t := lowerCs title.data
  if testRx rxCatStd t then "Standards"
  else if testRx rxCatTech t then "Technology"
  else if testRx rxCatProj t then "Projects"
  else if testRx rxCatRes2 t then "Research"
  else "Update"

/-! ## Data model

A parsed feed entry as delivered by `rss-parser`: absent string fields are
already collapsed to `""` (the scripts apply `|| ""`); the two date fields
are modelled as optional millisecond timestamps (`it.isoDate || it.pubDate`
falls through on absence). -/

structure Entry where
  title : String
  link : String
  contentSnippet : String
  content : String
  isoDate : Option Int
  pubDate : Option Int
deriving DecidableEq

structure Feed where
  title : Option String
  items : List Entry
deriving DecidableEq

/-- An item as built by `itemsFromFeeds`, still carrying `_score`. -/
structure RawItem where
  title : String
  url : String
  sourceName : String
  publishedAt : Int
  summary : String
  category : String
  score : Int
deriving DecidableEq

/-- A published item: exactly the six fields that survive
`({_score, ...rest}) => rest`. -/
structure NewsItem where
  title : String
  url : String
  sourceName : String
  publishedAt : Int
  summary : String
  category : String
deriving DecidableEq

def stripScore (r : RawItem) : NewsItem :=
  ⟨r.title, r.url, r.sourceName, r.publishedAt, r.summary, r.category⟩

/-- `(it.contentSnippet || it.content || "").replace(/\\s+/g," ").trim()`. -/
def entrySum (e : Entry) : String :=
  String.mk (jsTrim (collapseWs
    (if e.contentSnippet == "" then e.content else e.contentSnippet).data))

/-- `it.isoDate || it.pubDate || new Date().toISOString()`. -/
def entryDate (now : Int) (e : Entry) : Int :=
  match e.isoDate with
  | some t => t
  | none =>
    match e.pubDate with
    | some t => t
    | none => now

/-- The item pushed by the curated revision of `itemsFromFeeds`
(lines 59–80): the link is used as-is. -/
def mkItem1 (now : Int) (f : Feed) (e : Entry) : RawItem :=
  ⟨e.title, e.link,
   if hostOf e.link == "" then f.title.getD "News" else hostOf e.link,
   entryDate now e,
   String.mk ((entrySum e).data.take 240),
   guessCategory1 e.title,
   relevanceScore e.title (entrySum e)⟩

/-- Curated revision `itemsFromFeeds` (lines 59–80): keep score ≥ 0. -/
def itemsFromFeeds1 (now : Int) (feeds : List Feed) : List RawItem :=
  feeds.flatMap (fun f => f.items.filterMap (fun e =>
    if relevanceScore e.title (entrySum e) < 0 then none
    else some (mkItem1 now f e)))

/-- The item pushed by the safe-mode revision of `itemsFromFeeds`
(lines 307–329): the link is first passed through `unwrapGoogle`. -/
def mkItem2 (now : Int) (f : Feed) (e : Entry) : RawItem :=
  ⟨e.title, unwrapGoogle e.link,
   if hostOf (unwrapGoogle e.link) == "" then f.title.getD "News"
   else hostOf (unwrapGoogle e.link),
   entryDate now e,
   String.mk ((entrySum e).data.take 240),
   guessCategory2 e.title,
   scoreText e.title (entrySum e)⟩

/-- Safe-mode revision `itemsFromFeeds` (lines 307–329): keep score ≥ `MIN_SCORE`. -/
def itemsFromFeeds2 (now : Int) (feeds : List Feed) : List RawItem :=
  feeds.flatMap (fun f => f.items.filterMap (fun e =>
    if scoreText e.title (entrySum e) < minScore then none
    else some (mkItem2 now f e)))

/-! ## Deduplication, ranking, capping (`dedupeSortCap`, identical in both
revisions: lines 91–102 and 360–371) -/

/-- `!it.title || !it.url` — both fields must be non-empty (truthy). -/
def validB (r : RawItem) : Bool := !(r.title == "") && !(r.url == "")

/-- The dedup key: `norm(title)` plus `"|" + pathname` when the URL parses. -/
def keyOf (title url : String) : String :=
  normT title ++
    (match parseURL url with
     | some u => "|" ++ u.pathname
     | none => "")

def keyR (r : RawItem) : String := keyOf r.title r.url

def keyN (n : NewsItem) : String := keyOf n.title n.url

/-- The first-seen-wins dedup loop, with the `seen` key set made explicit. -/
def dedupe : List RawItem → List String → List RawItem
  | [], _ => []
  | it :: rest, seen =>
    if validB it = true then
      if keyR it ∈ seen then dedupe rest seen
      else it :: dedupe rest (keyR it :: seen)
    else dedupe rest seen

/-- The sort comparator `(b._score - a._score) || (dateB - dateA)` answers
"a strictly before b": a higher score, or an equal score and a strictly
later timestamp. -/
def ltItem (a b : RawItem) : Bool :=
  b.score < a.score || (a.score == b.score && b.publishedAt < a.publishedAt)

/-- Stable insertion: `x` (originally later) passes only strictly-greater
elements and lands before its equals, as the ECMAScript stable sort does. -/
def insItem (x : RawItem) : List RawItem → List RawItem
  | [] => [x]
  | y :: l => if ltItem y x then y :: insItem x l else x :: y :: l

/-- Stable sort by descending score, then descending timestamp. -/
def sortItems : List RawItem → List RawItem
  | [] => []
  | x :: l => insItem x (sortItems l)

/-- `dedupeSortCap` (lines 91–102 and 360–371). -/
def dedupeSortCap (raw : List RawItem) : List NewsItem :=
  ((sortItems (dedupe raw [])).take maxItems).map stripScore

/-! ## The two `main` flows -/

/-- One run of the curated revision (`main`, lines 112–145), as a state
transition on the published items: fetch/filter/dedupe/rank, then apply the
never-overwrite-with-empty policy against the previously published items
(lines 123–127, reading them back via `readPreviousItems`). -/
def publishStep (prev : List NewsItem) (now : Int) (feeds : List Feed) : List NewsItem :=
  if dedupeSortCap (itemsFromFeeds1 now feeds) = [] then
    (if prev = [] then dedupeSortCap (itemsFromFeeds1 now feeds) else prev)
  else dedupeSortCap (itemsFromFeeds1 now feeds)

/-- The published record over a whole sequence of runs, starting from no
previous file (`readPreviousItems` returns `[]` then). -/
def foldRuns (runs : List (Int × List Feed)) : List NewsItem :=
  runs.foldl (fun prev r => publishStep prev r.1 r.2) []

/-- `withinDays(iso, days)` (line 262): timestamp within the freshness
window ending at `now`. -/
def withinDaysB (now t days : Int) : Bool := now - days * 86400000 ≤ t

/-- `collectAll` (safe-mode revision, lines 331–358), with both the primary
and the fallback fetches given as inputs: the fallback sweep is appended
only when fewer than 10 fresh items survived. -/
def freshFilter (now : Int) (feeds : List Feed) : List RawItem :=
  (itemsFromFeeds2 now feeds).filter (fun i => withinDaysB now i.publishedAt freshDays)

def collectAll (now : Int) (feedsMain feedsFb : List Feed) : List RawItem :=
  if (freshFilter now feedsMain).length < 10 then
    freshFilter now feedsMain ++ freshFilter now feedsFb
  else freshFilter now feedsMain

/-- One run of the safe-mode revision (`main`, lines 373–385): collect,
then dedupe/sort/cap. -/
def runPipeline (now : Int) (feedsMain feedsFb : List Feed) : List NewsItem :=
  dedupeSortCap (collectAll now feedsMain feedsFb)


/-! ## Properties of the dedup loop -/

theorem mem_of_mem_dedupe {x : RawItem} :
    ∀ {raw : List RawItem} {seen : List String}, x ∈ dedupe raw seen → x ∈ raw := by
  intro raw
  induction raw with
  | nil => intro seen h; simp [dedupe] at h
  | cons it rest ih =>
    intro seen h
    simp only [dedupe] at h
    by_cases hv : validB it = true
    · rw [if_pos hv] at h
      by_cases hs : keyR it ∈ seen
      · rw [if_pos hs] at h
        exact List.mem_cons_of_mem _ (ih h)
      · rw [if_neg hs] at h
        rcases List.mem_cons.mp h with rfl | h2
        · exact List.mem_cons_self _ _
        · exact List.mem_cons_of_mem _ (ih h2)
    · rw [if_neg hv] at h
      exact List.mem_cons_of_mem _ (ih h)

theorem keyR_not_seen_of_mem_dedupe {x : RawItem} :
    ∀ {raw : List RawItem} {seen : List String},
      x ∈ dedupe raw seen → keyR x ∉ seen := by
  intro raw
  induction raw with
  | nil => intro seen h; simp [dedupe] at h
  | cons it rest ih =>
    intro seen h
    simp only [dedupe] at h
    by_cases hv : validB it = true
    · rw [if_pos hv] at h
      by_cases hs : keyR it ∈ seen
      · rw [if_pos hs] at h; exact ih h
      · rw [if_neg hs] at h
        rcases List.mem_cons.mp h with rfl | h2
        · exact hs
        · have h3 := ih h2
          intro hmem
          exact h3 (List.mem_cons_of_mem _ hmem)
    · rw [if_neg hv] at h; exact ih h

theorem valid_of_mem_dedupe {x : RawItem} :
    ∀ {raw : List RawItem} {seen : List String},
      x ∈ dedupe raw seen → validB x = true := by
  intro raw
  induction raw with
  | nil => intro seen h; simp [dedupe] at h
  | cons it rest ih =>
    intro seen h
    simp only [dedupe] at h
    by_cases hv : validB it = true
    · rw [if_pos hv] at h
      by_cases hs : keyR it ∈ seen
      · rw [if_pos hs] at h; exact ih h
      · rw [if_neg hs] at h
        rcases List.mem_cons.mp h with rfl | h2
        · exact hv
        · exact ih h2
    · rw [if_neg hv] at h; exact ih h

theorem dedupe_pairwise_keys :
    ∀ (raw : List RawItem) (seen : List String),
      (dedupe raw seen).Pairwise (fun a b => keyR a ≠ keyR b) := by
  intro raw
  induction raw with
  | nil => intro seen; simp [dedupe]
  | cons it rest ih =>
    intro seen
    simp only [dedupe]
    by_cases hv : validB it = true
    · rw [if_pos hv]
      by_cases hs : keyR it ∈ seen
      · rw [if_pos hs]; exact ih seen
      · rw [if_neg hs]
        refine List.Pairwise.cons ?_ (ih (keyR it :: seen))
        intro b hb hkey
        have h2 := keyR_not_seen_of_mem_dedupe hb
        exact h2 (hkey ▸ List.mem_cons_self _ _)
    · rw [if_neg hv]; exact ih seen

/-- Every survivor of the dedup loop is the first valid occurrence of its
key: no earlier valid entry of the input shares it. -/
theorem dedupe_first_seen {x : RawItem} :
    ∀ {raw : List RawItem} {seen : List String},
      x ∈ dedupe raw seen →
      ∃ l1 l2, raw = l1 ++ x :: l2 ∧
        ∀ y ∈ l1, validB y = true → keyR y ≠ keyR x := by
  intro raw
  induction raw with
  | nil => intro seen h; simp [dedupe] at h
  | cons it rest ih =>
    intro seen h
    simp only [dedupe] at h
    by_cases hv : validB it = true
    · rw [if_pos hv] at h
      by_cases hs : keyR it ∈ seen
      · rw [if_pos hs] at h
        have hnot := keyR_not_seen_of_mem_dedupe h
        obtain ⟨l1, l2, hsplit, hfst⟩ := ih h
        refine ⟨it :: l1, l2, by simp [hsplit], ?_⟩
        intro y hy hvy
        rcases List.mem_cons.mp hy with rfl | hy2
        · exact fun hk => hnot (hk ▸ hs)
        · exact hfst y hy2 hvy
      · rw [if_neg hs] at h
        rcases List.mem_cons.mp h with rfl | h2
        · exact ⟨[], rest, rfl, by simp⟩
        · have hnot := keyR_not_seen_of_mem_dedupe h2
          obtain ⟨l1, l2, hsplit, hfst⟩ := ih h2
          refine ⟨it :: l1, l2, by simp [hsplit], ?_⟩
          intro y hy hvy
          rcases List.mem_cons.mp hy with rfl | hy2
          · exact fun hk => hnot (hk ▸ List.mem_cons_self _ _)
          · exact hfst y hy2 hvy
    · rw [if_neg hv] at h
      obtain ⟨l1, l2, hsplit, hfst⟩ := ih h
      refine ⟨it :: l1, l2, by simp [hsplit], ?_⟩
      intro y hy hvy
      rcases List.mem_cons.mp hy with rfl | hy2
      · exact absurd hvy hv
      · exact hfst y hy2 hvy

/-- Every valid input item is represented in the dedup output: some
survivor carries its key (provided the key is not blocked by `seen`). -/
theorem dedupe_complete {r : RawItem} :
    ∀ {raw : List RawItem} {seen : List String},
      r ∈ raw → validB r = true → keyR r ∉ seen →
      ∃ x, x ∈ dedupe raw seen ∧ keyR x = keyR r := by
  intro raw
  induction raw with
  | nil => intro seen h; simp at h
  | cons it rest ih =>
    intro seen hmem hv hs
    simp only [dedupe]
    rcases List.mem_cons.mp hmem with rfl | hmem2
    · rw [if_pos hv, if_neg hs]
      exact ⟨r, List.mem_cons_self _ _, rfl⟩
    · by_cases hvit : validB it = true
      · rw [if_pos hvit]
        by_cases hsk : keyR it ∈ seen
        · rw [if_pos hsk]; exact ih hmem2 hv hs
        · rw [if_neg hsk]
          by_cases hkey : keyR it = keyR r
          · exact ⟨it, List.mem_cons_self _ _, hkey⟩
          · have hs2 : keyR r ∉ keyR it :: seen := by
              intro hc
              rcases List.mem_cons.mp hc with hc1 | hc2
              · exact hkey hc1.symm
              · exact hs hc2
            obtain ⟨x, hx, hk⟩ := ih hmem2 hv hs2
            exact ⟨x, List.mem_cons_of_mem _ hx, hk⟩
      · rw [if_neg hvit]; exact ih hmem2 hv hs

/-! ## Properties of the stable sort -/

/-- The rank order the sorted list realises: score descending, then
publication timestamp descending on score ties. -/
def leOrd (a b : RawItem) : Prop :=
  b.score ≤ a.score ∧ (a.score = b.score → b.publishedAt ≤ a.publishedAt)

theorem leOrd_of_lt {a b : RawItem} (h : ltItem a b = true) : leOrd a b := by
  simp only [ltItem, Bool.or_eq_true, Bool.and_eq_true, decide_eq_true_eq,
    beq_iff_eq] at h
  rcases h with h | ⟨h1, h2⟩
  · exact ⟨le_of_lt h, fun he => absurd (he ▸ h) (lt_irrefl _)⟩
  · exact ⟨le_of_eq h1.symm, fun _ => le_of_lt h2⟩

theorem leOrd_of_not_lt {a b : RawItem} (h : ltItem b a = false) : leOrd a b := by
  simp only [ltItem, Bool.or_eq_false_iff, Bool.and_eq_false_iff,
    decide_eq_false_iff_not, beq_eq_false_iff_ne, ne_eq] at h
  obtain ⟨h1, h2⟩ := h
  refine ⟨not_lt.mp h1, fun he => ?_⟩
  rcases h2 with h2 | h2
  · exact absurd he.symm h2
  · exact not_lt.mp h2

theorem leOrd_trans {a b c : RawItem} (h1 : leOrd a b) (h2 : leOrd b c) :
    leOrd a c := by
  refine ⟨le_trans h2.1 h1.1, fun he => ?_⟩
  have hsb : b.score = a.score := le_antisymm (h1.1) (he ▸ h2.1)
  exact le_trans (h2.2 (he ▸ hsb.symm ▸ rfl)) (h1.2 hsb.symm)

theorem mem_insItem {z x : RawItem} :
    ∀ {l : List RawItem}, z ∈ insItem x l ↔ z = x ∨ z ∈ l := by
  intro l
  induction l with
  | nil => simp [insItem]
  | cons y l ih =>
    simp only [insItem]
    by_cases h : ltItem y x = true
    · rw [if_pos h]
      simp only [List.mem_cons, ih]
      tauto
    · rw [if_neg h]
      simp only [List.mem_cons]

theorem insItem_perm (x : RawItem) :
    ∀ (l : List RawItem), (insItem x l).Perm (x :: l) := by
  intro l
  induction l with
  | nil => simp [insItem]
  | cons y l ih =>
    simp only [insItem]
    by_cases h : ltItem y x = true
    · rw [if_pos h]
      exact (ih.cons y).trans (List.Perm.swap x y l)
    · rw [if_neg h]

theorem sortItems_perm : ∀ (l : List RawItem), (sortItems l).Perm l := by
  intro l
  induction l with
  | nil => simp [sortItems]
  | cons x l ih =>
    simp only [sortItems]
    exact (insItem_perm x (sortItems l)).trans (ih.cons x)

theorem pairwise_insItem {x : RawItem} :
    ∀ {l : List RawItem}, l.Pairwise leOrd → (insItem x l).Pairwise leOrd := by
  intro l
  induction l with
  | nil => intro _; simp [insItem]
  | cons y l ih =>
    intro h
    simp only [insItem]
    by_cases hlt : ltItem y x = true
    · rw [if_pos hlt]
      refine List.Pairwise.cons ?_ (ih (List.pairwise_cons.mp h).2)
      intro z hz
      rcases mem_insItem.mp hz with rfl | hz2
      · exact leOrd_of_lt hlt
      · exact (List.pairwise_cons.mp h).1 z hz2
    · rw [if_neg hlt]
      have hlt2 : ltItem y x = false := Bool.not_eq_true _ ▸ hlt
      refine List.Pairwise.cons ?_ h
      intro z hz
      rcases List.mem_cons.mp hz with rfl | hz2
      · exact leOrd_of_not_lt hlt2
      · exact leOrd_trans (leOrd_of_not_lt hlt2)
          ((List.pairwise_cons.mp h).1 z hz2)

theorem sortItems_pairwise : ∀ (l : List RawItem), (sortItems l).Pairwise leOrd := by
  intro l
  induction l with
  | nil => simp [sortItems]
  | cons x l ih =>
    simp only [sortItems]
    exact pairwise_insItem ih

/-! ## Origin of pipeline items -/

theorem keyN_stripScore (r : RawItem) : keyN (stripScore r) = keyR r := rfl

theorem mem_itemsFromFeeds1 {x : RawItem} {now : Int} {feeds : List Feed} :
    x ∈ itemsFromFeeds1 now feeds ↔
      ∃ f, f ∈ feeds ∧ ∃ e, e ∈ f.items ∧
        0 ≤ relevanceScore e.title (entrySum e) ∧ x = mkItem1 now f e := by
  simp only [itemsFromFeeds1, List.mem_flatMap, List.mem_filterMap]
  constructor
  · rintro ⟨f, hf, e, he, hx⟩
    by_cases hc : relevanceScore e.title (entrySum e) < 0
    · rw [if_pos hc] at hx; exact absurd hx (by simp)
    · rw [if_neg hc] at hx
      exact ⟨f, hf, e, he, le_of_not_lt hc, (Option.some.inj hx).symm⟩
  · rintro ⟨f, hf, e, he, hsc, rfl⟩
    exact ⟨f, hf, e, he, by rw [if_neg (not_lt.mpr hsc)]⟩

theorem mem_itemsFromFeeds2 {x : RawItem} {now : Int} {feeds : List Feed} :
    x ∈ itemsFromFeeds2 now feeds ↔
      ∃ f, f ∈ feeds ∧ ∃ e, e ∈ f.items ∧
        minScore ≤ scoreText e.title (entrySum e) ∧ x = mkItem2 now f e := by
  simp only [itemsFromFeeds2, List.mem_flatMap, List.mem_filterMap]
  constructor
  · rintro ⟨f, hf, e, he, hx⟩
    by_cases hc : scoreText e.title (entrySum e) < minScore
    · rw [if_pos hc] at hx; exact absurd hx (by simp)
    · rw [if_neg hc] at hx
      exact ⟨f, hf, e, he, le_of_not_lt hc, (Option.some.inj hx).symm⟩
  · rintro ⟨f, hf, e, he, hsc, rfl⟩
    exact ⟨f, hf, e, he, by rw [if_neg (not_lt.mpr hsc)]⟩

/-- Every published item is a score-stripped survivor of the dedup loop. -/
theorem mem_dedupeSortCap {x : NewsItem} {raw : List RawItem} :
    x ∈ dedupeSortCap raw → ∃ r, r ∈ dedupe raw [] ∧ x = stripScore r := by
  intro h
  simp only [dedupeSortCap, List.mem_map] at h
  obtain ⟨r, hr, rfl⟩ := h
  have h2 : r ∈ sortItems (dedupe raw []) :=
    (List.take_subset _ _) hr
  exact ⟨r, (sortItems_perm _).mem_iff.mp h2, rfl⟩

/-- Characterisation of literal-prefix stripping: `dropLit p s` succeeds
with remainder `r` exactly when `s` is `p` followed by `r`. -/
theorem dropLit_eq_some {p : List Char} :
    ∀ {s r : List Char}, dropLit p s = some r ↔ s = p ++ r := by
  induction p with
  | nil =>
    intro s r
    simp [dropLit]
  | cons a ps ih =>
    intro s r
    cases s with
    | nil => simp [dropLit]
    | cons c cs =>
      simp only [dropLit]
      by_cases h : (a == c) = true
      · rw [if_pos h]
        have ha : a = c := beq_iff_eq.mp h
        subst ha
        rw [ih]
        simp
      · rw [if_neg h]
        constructor
        · intro hn; exact absurd hn (by simp)
        · intro he
          injection he with h1 h2
          exact absurd (beq_iff_eq.mpr h1.symm) h

/-- Evaluation of `unwrapGoogle` on a link the URL parser accepts. -/
theorem unwrapGoogle_parsed {href : String} {u : UrlM} (hp : parseURL href = some u) :
    unwrapGoogle href =
      (if (listContainsSub "news.google.com".data u.hostname.data
            && spHas u "url") = true
       then (spGet u "url").getD href else href) := by
  unfold unwrapGoogle
  rw [hp]

/-- Evaluation of `hostOf` on a link the URL parser accepts. -/
theorem hostOf_parsed {url : String} {u : UrlM} (hp : parseURL url = some u) :
    hostOf url =
      (match dropLit "www.".data u.hostname.data with
       | some rest => String.mk rest
       | none => u.hostname) := by
  unfold hostOf
  rw [hp]

/-! ## Claims -/

/-- Claim C6, counterexample: the pipeline only unwraps links whose hostname
contains `news.google.com`; the link `https://news.example.com/rss?url=...`
claimed in the spec is returned unchanged (its derived host stays
`news.example.com`), not rewritten to the embedded destination. -/
theorem claim_C6_redirect_unwrap_cex :
    unwrapGoogle "https://news.example.com/rss?url=https://realsite.com/a"
        = "https://news.example.com/rss?url=https://realsite.com/a" ∧
    unwrapGoogle "https://news.example.com/rss?url=https://realsite.com/a"
        ≠ "https://realsite.com/a" ∧
    hostOf "https://news.example.com/rss?url=https://realsite.com/a"
        = "news.example.com" := by
  refine ⟨by decide, by decide, by decide⟩

/-- Claim C6, amended: the only redirect wrapper the code knows is the
`news.google.com` host.  Universally: every link parsing to a URL whose
hostname contains `news.google.com` and whose query carries a `url`
parameter is unwrapped to the embedded destination (the parameter's
decoded value); every link on a host not containing `news.google.com`, and
every link without a `url` parameter, is returned unchanged; host
derivation strips one leading `www.` label when present and otherwise
returns the hostname; and the spec's example link, relocated to the
`news.google.com` host, unwraps to `https://realsite.com/a` with derived
host `realsite.com`. -/
theorem claim_C6_redirect_unwrap :
    (∀ (href : String) (u : UrlM), parseURL href = some u →
        listContainsSub "news.google.com".data u.hostname.data = true →
        spHas u "url" = true →
        ∃ dest, spGet u "url" = some dest ∧ unwrapGoogle href = dest) ∧
    (∀ (href : String) (u : UrlM), parseURL href = some u →
        listContainsSub "news.google.com".data u.hostname.data = false →
        unwrapGoogle href = href) ∧
    (∀ (href : String) (u : UrlM), parseURL href = some u →
        spHas u "url" = false →
        unwrapGoogle href = href) ∧
    (∀ (url : String) (u : UrlM) (rest : List Char), parseURL url = some u →
        u.hostname.data = "www.".data ++ rest →
        hostOf url = String.mk rest) ∧
    (∀ (url : String) (u : UrlM), parseURL url = some u →
        (∀ rest : List Char, u.hostname.data ≠ "www.".data ++ rest) →
        hostOf url = u.hostname) ∧
    (unwrapGoogle "https://news.google.com/rss?url=https://realsite.com/a"
        = "https://realsite.com/a" ∧
     hostOf "https://realsite.com/a" = "realsite.com" ∧
     hostOf "https://www.realsite.com/a" = "realsite.com") := by
  refine ⟨?_, ?_, ?_, ?_, ?_, by decide, by decide, by decide⟩
  · intro href u hp hc hh
    have hfind : ((queryPairs u.query).find? (fun p => p.1 == "url")).isSome := by
      rw [List.find?_isSome]
      unfold spHas at hh
      rw [List.any_eq_true] at hh
      exact hh
    obtain ⟨q, hq⟩ := Option.isSome_iff_exists.mp hfind
    refine ⟨q.2, ?_, ?_⟩
    · unfold spGet
      rw [hq]
      rfl
    · rw [unwrapGoogle_parsed hp, if_pos (by rw [hc, hh]; rfl)]
      unfold spGet
      rw [hq]
      rfl
  · intro href u hp hc
    rw [unwrapGoogle_parsed hp, if_neg (by simp [hc])]
  · intro href u hp hh
    rw [unwrapGoogle_parsed hp, if_neg (by simp [hh])]
  · intro url u rest hp hw
    rw [hostOf_parsed hp, dropLit_eq_some.mpr hw]
  · intro url u hp hnw
    rw [hostOf_parsed hp]
    cases hd : dropLit "www.".data u.hostname.data with
    | none => rfl
    | some r => exact absurd (dropLit_eq_some.mp hd) (hnw r)

/-- Claim C6, witness: every universal conjunct instantiated on a concrete
link — unwrap of a `news.google.com` link with a `url` parameter, no-op on
the `news.example.com` host and on a link without a `url` parameter, and
`www.`-stripping versus plain host derivation. -/
theorem claim_C6_redirect_unwrap_witness :
    parseURL "https://news.google.com/rss?url=https://realsite.com/a"
        = some ⟨"news.google.com", "/rss", "url=https://realsite.com/a"⟩ ∧
    (∃ dest, spGet ⟨"news.google.com", "/rss", "url=https://realsite.com/a"⟩ "url"
          = some dest ∧
        unwrapGoogle "https://news.google.com/rss?url=https://realsite.com/a"
          = dest) ∧
    unwrapGoogle "https://news.example.com/rss?url=https://realsite.com/a"
        = "https://news.example.com/rss?url=https://realsite.com/a" ∧
    unwrapGoogle "https://news.google.com/rss"
        = "https://news.google.com/rss" ∧
    hostOf "https://www.realsite.com/a" = String.mk "realsite.com".data ∧
    hostOf "https://realsite.com/a" = "realsite.com" := by
  refine ⟨by decide,
    claim_C6_redirect_unwrap.1 _
      ⟨"news.google.com", "/rss", "url=https://realsite.com/a"⟩
      (by decide) (by decide) (by decide),
    claim_C6_redirect_unwrap.2.1 _
      ⟨"news.example.com", "/rss", "url=https://realsite.com/a"⟩
      (by decide) (by decide),
    claim_C6_redirect_unwrap.2.2.1 _
      ⟨"news.google.com", "/rss", ""⟩ (by decide) (by decide),
    claim_C6_redirect_unwrap.2.2.2.1 _
      ⟨"www.realsite.com", "/a", ""⟩ "realsite.com".data (by decide) (by decide),
    claim_C6_redirect_unwrap.2.2.2.2.1 _
      ⟨"realsite.com", "/a", ""⟩ (by decide)
      (fun rest h => by
        have h2 : some 'r' = some 'w' := congrArg List.head? h
        exact absurd (Option.some.inj h2) (by decide))⟩

/-- Claim C7: on a string the URL parser rejects, `unwrapGoogle` returns its
argument unchanged and `hostOf` returns `""` (neither can raise — both are
total); an entry is kept or dropped only by its relevance score, never by
URL parseability, and when its link is unparsable the built item falls back
to the feed-provided source label (`f.title ?? "News"`). -/
theorem claim_C7_malformed_url_safe :
    (∀ s : String, parseURL s = none → unwrapGoogle s = s ∧ hostOf s = "") ∧
    (∀ (now : Int) (f : Feed) (e : Entry), e ∈ f.items →
        minScore ≤ scoreText e.title (entrySum e) →
        mkItem2 now f e ∈ itemsFromFeeds2 now [f]) ∧
    (∀ (now : Int) (f : Feed) (e : Entry), parseURL e.link = none →
        (mkItem2 now f e).sourceName = f.title.getD "News") := by
  refine ⟨?_, ?_, ?_⟩
  · intro s h
    constructor
    · unfold unwrapGoogle; rw [h]
    · unfold hostOf; rw [h]
  · intro now f e he hsc
    exact mem_itemsFromFeeds2.mpr ⟨f, List.mem_singleton_self f, e, he, hsc, rfl⟩
  · intro now f e h
    have h1 : unwrapGoogle e.link = e.link := by unfold unwrapGoogle; rw [h]
    have h2 : hostOf e.link = "" := by unfold hostOf; rw [h]
    show (if hostOf (unwrapGoogle e.link) == "" then f.title.getD "News"
          else hostOf (unwrapGoogle e.link)) = f.title.getD "News"
    rw [h1, h2]
    rfl

/-- Claim C7, witness at the unparsable link `"not a url"`. -/
theorem claim_C7_malformed_url_safe_witness :
    parseURL "not a url" = none ∧
    (unwrapGoogle "not a url" = "not a url" ∧ hostOf "not a url" = "") ∧
    (mkItem2 0 ⟨none, [⟨"flowmeter report", "not a url", "calibration", "", some 5, none⟩]⟩
        ⟨"flowmeter report", "not a url", "calibration", "", some 5, none⟩
      ∈ itemsFromFeeds2 0 [⟨none, [⟨"flowmeter report", "not a url", "calibration", "", some 5, none⟩]⟩]) ∧
    (mkItem2 0 ⟨none, [⟨"flowmeter report", "not a url", "calibration", "", some 5, none⟩]⟩
        ⟨"flowmeter report", "not a url", "calibration", "", some 5, none⟩).sourceName = "News" := by
  refine ⟨by decide, claim_C7_malformed_url_safe.1 "not a url" (by decide), ?_, ?_⟩
  · exact claim_C7_malformed_url_safe.2.1 0 _ _ (List.mem_singleton_self _) (by decide)
  · exact claim_C7_malformed_url_safe.2.2 0
      ⟨none, [⟨"flowmeter report", "not a url", "calibration", "", some 5, none⟩]⟩
      ⟨"flowmeter report", "not a url", "calibration", "", some 5, none⟩ (by decide)

/-- Claim C9, counterexample: an item whose title contains a `|` character
can share its dedup key with an item whose URL is unparsable — refuting
"an item with a parsable URL never shares a key with an item whose URL is
unparsable". -/
theorem claim_C9_key_fallback_cex :
    keyR ⟨"abc", "https://h.com/x", "", 0, "", "", 0⟩ =
      keyR ⟨"abc|/x", "nota url", "", 0, "", "", 0⟩ ∧
    parseURL "https://h.com/x" ≠ none ∧
    parseURL "nota url" = none := by
  refine ⟨by decide, by decide, by decide⟩

/-- Claim C9, amended: when an item's URL fails to parse its dedup key is
the normalized title alone; two valid items with unparsable URLs and the
same normalized title collapse to the first; and an item with a parsable
URL never shares a key with an unparsable-URL item whose normalized title
does not contain the `|` character. -/
theorem claim_C9_key_fallback :
    (∀ title url, parseURL url = none → keyOf title url = normT title) ∧
    (∀ a b : RawItem, validB a = true → validB b = true →
        parseURL a.url = none → parseURL b.url = none →
        normT a.title = normT b.title → dedupe [a, b] [] = [a]) ∧
    (∀ t1 u1 t2 u2 : String, parseURL u1 ≠ none → parseURL u2 = none →
        '|' ∉ (normT t2).data → keyOf t1 u1 ≠ keyOf t2 u2) := by
  refine ⟨?_, ?_, ?_⟩
  · intro title url h
    unfold keyOf
    rw [h]
    exact String.append_empty _
  · intro a b hva hvb hpa hpb hnt
    have hkb : keyR b = keyR a := by
      unfold keyR keyOf
      rw [hpa, hpb, hnt]
    simp [dedupe, hva, hvb, hkb]
  · intro t1 u1 t2 u2 h1 h2 hbar
    cases hp : parseURL u1 with
    | none => exact absurd hp h1
    | some u =>
      intro heq
      apply hbar
      have h3 : keyOf t2 u2 = normT t2 := by
        unfold keyOf; rw [h2]; exact String.append_empty _
      have h4 : keyOf t1 u1 = normT t1 ++ ("|" ++ u.pathname) := by
        unfold keyOf; rw [hp]
      rw [h3] at heq
      rw [h4] at heq
      have : '|' ∈ (normT t1 ++ ("|" ++ u.pathname)).data := by
        rw [String.data_append, String.data_append]
        simp
      rw [heq] at this
      exact this

/-- Claim C9, witness: fallback key, same-title collapse of two
unparsable-URL items, and key disjointness against a parsable URL, at
concrete inputs. -/
theorem claim_C9_key_fallback_witness :
    parseURL "bad url" = none ∧
    keyOf "My  Title" "bad url" = normT "My  Title" ∧
    dedupe [⟨"Same  Title", "bad url one", "", 5, "", "", 1⟩,
            ⟨"same title", "bad url two", "", 9, "", "", 2⟩] []
      = [⟨"Same  Title", "bad url one", "", 5, "", "", 1⟩] ∧
    keyOf "t1" "https://h.com/x" ≠ keyOf "xyz" "bad url" := by
  refine ⟨by decide,
    claim_C9_key_fallback.1 "My  Title" "bad url" (by decide),
    claim_C9_key_fallback.2.1 _ _ (by decide) (by decide) (by decide) (by decide)
      (by decide),
    claim_C9_key_fallback.2.2 "t1" "https://h.com/x" "xyz" "bad url"
      (by decide) (by decide) (by decide)⟩

/-- Claim C10: every published item consists of exactly the six public
fields — it is the `_score`-stripping of an item the pipeline built, and the
`NewsItem` record has no score field. -/
theorem claim_C10_published_shape (raw : List RawItem) :
    ∀ x ∈ dedupeSortCap raw, ∃ r, r ∈ raw ∧ x = stripScore r := by
  intro x hx
  obtain ⟨r, hr, rfl⟩ := mem_dedupeSortCap hx
  exact ⟨r, mem_of_mem_dedupe hr, rfl⟩

/-- Claim C10, witness: a concrete run whose single published item is the
score-stripping of the single raw item. -/
theorem claim_C10_published_shape_witness :
    stripScore ⟨"t", "https://a.com/x", "a.com", 7, "s", "Update", 3⟩
        ∈ dedupeSortCap [⟨"t", "https://a.com/x", "a.com", 7, "s", "Update", 3⟩] ∧
    ∃ r, r ∈ [(⟨"t", "https://a.com/x", "a.com", 7, "s", "Update", 3⟩ : RawItem)] ∧
      stripScore ⟨"t", "https://a.com/x", "a.com", 7, "s", "Update", 3⟩ = stripScore r := by
  refine ⟨by decide, claim_C10_published_shape _ _ (by decide)⟩

/-- Claim C2: exclusion precedence — any text matching the disambiguation
(drop) lexicon scores below the keep threshold in both scorer revisions,
regardless of inclusion matches (the curated scorer tests `RX_DROP` first;
the safe-mode scorer returns −9999 whenever `RX_BAD` matches after the
domain test); consequently no pipeline item carries a below-threshold
score. -/
theorem claim_C2_exclusion_precedence :
    (∀ title summary : String, testRx rxDrop (scoreInput title summary) = true →
        relevanceScore title summary < 0 ∧ scoreText title summary < minScore) ∧
    (∀ (now : Int) (feeds : List Feed) (it : RawItem),
        it ∈ itemsFromFeeds1 now feeds → 0 ≤ it.score) ∧
    (∀ (now : Int) (feeds : List Feed) (it : RawItem),
        it ∈ itemsFromFeeds2 now feeds → minScore ≤ it.score) := by
  refine ⟨?_, ?_, ?_⟩
  · intro title summary h
    constructor
    · simp only [relevanceScore, h, if_true]
      decide
    · by_cases hm : testRx rxMeas (scoreInput title summary) = true
      · simp only [scoreText, hm, h, Bool.not_true, Bool.false_eq_true, if_false, if_true]
        decide
      · have hm2 : testRx rxMeas (scoreInput title summary) = false :=
          Bool.not_eq_true _ ▸ hm
        simp only [scoreText, hm2, Bool.not_false, if_true]
        decide
  · intro now feeds it hmem
    obtain ⟨f, hf, e, he, hsc, rfl⟩ := mem_itemsFromFeeds1.mp hmem
    exact hsc
  · intro now feeds it hmem
    obtain ⟨f, hf, e, he, hsc, rfl⟩ := mem_itemsFromFeeds2.mp hmem
    exact hsc

/-- Claim C2, witness: the spec scenario — text carrying both an inclusion
term ("flow meter") and an exclusion term ("bitcoin custody") is scored
below threshold by both revisions. -/
theorem claim_C2_exclusion_precedence_witness :
    testRx rxDrop (scoreInput "Ultrasonic flow meter" "bitcoin custody platform") = true ∧
    testRx rxKeep (scoreInput "Ultrasonic flow meter" "bitcoin custody platform") = true ∧
    relevanceScore "Ultrasonic flow meter" "bitcoin custody platform" < 0 ∧
    scoreText "Ultrasonic flow meter" "bitcoin custody platform" < minScore := by
  refine ⟨by decide, by decide,
    (claim_C2_exclusion_precedence.1 _ _ (by decide)).1,
    (claim_C2_exclusion_precedence.1 _ _ (by decide)).2⟩

/-- Claim C3: the dedup key is the normalized title joined to the resolved
URL path by `"|"` (when the URL parses); published items have pairwise
distinct keys; each published item is the score-stripping of the first
valid input occurrence of its key; and before capping, every valid input
item has a key representative among the dedup survivors. -/
theorem claim_C3_dedup_invariant (raw : List RawItem) :
    (∀ (title url : String) (pu : UrlM), parseURL url = some pu →
        keyOf title url = normT title ++ ("|" ++ pu.pathname)) ∧
    (dedupeSortCap raw).Pairwise (fun a b => keyN a ≠ keyN b) ∧
    (∀ x ∈ dedupeSortCap raw, ∃ l1 r l2, raw = l1 ++ r :: l2 ∧ x = stripScore r ∧
        keyN x = keyR r ∧ ∀ y ∈ l1, validB y = true → keyR y ≠ keyR r) ∧
    (∀ r ∈ raw, validB r = true → ∃ x, x ∈ dedupe raw [] ∧ keyR x = keyR r) := by
  refine ⟨?_, ?_, ?_, ?_⟩
  · intro title url pu h
    unfold keyOf
    rw [h]
  · have h1 := dedupe_pairwise_keys raw []
    have h2 : (sortItems (dedupe raw [])).Pairwise (fun a b => keyR a ≠ keyR b) :=
      ((sortItems_perm (dedupe raw [])).pairwise_iff
        (fun h he => h he.symm)).mpr h1
    have h3 : ((sortItems (dedupe raw [])).take maxItems).Pairwise
        (fun a b => keyR a ≠ keyR b) :=
      List.Pairwise.sublist (List.take_sublist _ _) h2
    unfold dedupeSortCap
    rw [List.pairwise_map]
    exact h3.imp (fun h => by simpa [keyN_stripScore] using h)
  · intro x hx
    obtain ⟨r, hr, rfl⟩ := mem_dedupeSortCap hx
    obtain ⟨l1, l2, hsplit, hfst⟩ := dedupe_first_seen hr
    exact ⟨l1, r, l2, hsplit, rfl, keyN_stripScore r, hfst⟩
  · intro r hmem hv
    exact dedupe_complete hmem hv (List.not_mem_nil _)

/-- Concrete input for the C3 witness: two valid items whose normalized
titles and URL paths coincide (hence equal keys), the later one with the
higher score. -/
def c3First : RawItem := ⟨"Flow news", "https://a.com/p", "a.com", 5, "", "Update", 2⟩

def c3Dup : RawItem := ⟨"flow   NEWS", "https://b.org/p", "b.org", 9, "", "Update", 7⟩

/-- Claim C3, witness: on `[c3First, c3Dup]` the published list keeps
exactly the first-seen occurrence of the shared key. -/
theorem claim_C3_dedup_invariant_witness :
    keyR c3First = keyR c3Dup ∧
    dedupeSortCap [c3First, c3Dup] = [stripScore c3First] ∧
    stripScore c3First ∈ dedupeSortCap [c3First, c3Dup] ∧
    (∃ l1 r l2, [c3First, c3Dup] = l1 ++ r :: l2 ∧
      stripScore c3First = stripScore r ∧ keyN (stripScore c3First) = keyR r ∧
      ∀ y ∈ l1, validB y = true → keyR y ≠ keyR r) := by
  refine ⟨by decide, by decide, by decide, ?_⟩
  exact (claim_C3_dedup_invariant [c3First, c3Dup]).2.2.1 (stripScore c3First) (by decide)

/-- Claim C4: the published list is the score-stripping of a scored list
that is pairwise (hence adjacent-pairwise) ordered by relevance score
descending, breaking score ties by publication timestamp descending. -/
theorem claim_C4_ordering_invariant (raw : List RawItem) :
    ∃ scored : List RawItem,
      dedupeSortCap raw = scored.map stripScore ∧
      scored.Pairwise (fun a b =>
        b.score ≤ a.score ∧ (a.score = b.score → b.publishedAt ≤ a.publishedAt)) := by
  refine ⟨(sortItems (dedupe raw [])).take maxItems, rfl, ?_⟩
  exact List.Pairwise.sublist (List.take_sublist _ _)
    (sortItems_pairwise (dedupe raw []))

theorem dedupeSortCap_length_le (raw : List RawItem) :
    (dedupeSortCap raw).length ≤ maxItems := by
  unfold dedupeSortCap
  rw [List.length_map, List.length_take]
  exact min_le_left _ _

theorem publishStep_length_le {prev : List NewsItem} (now : Int) (feeds : List Feed)
    (hp : prev.length ≤ maxItems) :
    (publishStep prev now feeds).length ≤ maxItems := by
  unfold publishStep
  split_ifs with h1 h2
  · exact dedupeSortCap_length_le _
  · exact hp
  · exact dedupeSortCap_length_le _

/-- Claim C5: the published list never exceeds `MAX_ITEMS` (30) — neither
in a single dedupe/sort/cap pass nor across any sequence of curated-mode
runs in which the empty-preserve policy may republish the previous list. -/
theorem claim_C5_cap_invariant :
    (∀ raw : List RawItem, (dedupeSortCap raw).length ≤ maxItems) ∧
    (∀ runs : List (Int × List Feed), (foldRuns runs).length ≤ maxItems) := by
  refine ⟨dedupeSortCap_length_le, ?_⟩
  intro runs
  unfold foldRuns
  have haux : ∀ (rs : List (Int × List Feed)) (prev : List NewsItem),
      prev.length ≤ maxItems →
      (rs.foldl (fun p r => publishStep p r.1 r.2) prev).length ≤ maxItems := by
    intro rs
    induction rs with
    | nil => intro prev hp; exact hp
    | cons r rs ih =>
      intro prev hp
      exact ih _ (publishStep_length_le r.1 r.2 hp)
  exact haux runs [] (Nat.zero_le _)

/-- Claim C1: the never-overwrite-with-empty policy — when the current run
produces an empty list and the previously published list is non-empty, the
previous list is republished verbatim; the previous record is replaced
exactly when the new run yields at least one item. -/
theorem claim_C1_empty_preserve (prev : List NewsItem) (now : Int) (feeds : List Feed) :
    (dedupeSortCap (itemsFromFeeds1 now feeds) = [] → prev ≠ [] →
        publishStep prev now feeds = prev) ∧
    (dedupeSortCap (itemsFromFeeds1 now feeds) ≠ [] →
        publishStep prev now feeds = dedupeSortCap (itemsFromFeeds1 now feeds)) := by
  constructor
  · intro h hp
    unfold publishStep
    rw [if_pos h, if_neg hp]
  · intro h
    unfold publishStep
    rw [if_neg h]

/-- Previously published record for the C1 witness: five items. -/
def c1Prev : List NewsItem :=
  [⟨"t1", "https://a.com/1", "a.com", 1, "s1", "Update"⟩,
   ⟨"t2", "https://a.com/2", "a.com", 2, "s2", "Update"⟩,
   ⟨"t3", "https://a.com/3", "a.com", 3, "s3", "Update"⟩,
   ⟨"t4", "https://a.com/4", "a.com", 4, "s4", "Update"⟩,
   ⟨"t5", "https://a.com/5", "a.com", 5, "s5", "Update"⟩]

/-- A feed whose only entry is excluded by the drop lexicon, so the run
yields zero qualifying items. -/
def c1BadFeed : Feed :=
  ⟨some "F", [⟨"Bitcoin custody grows", "https://x.com/a", "etf inflows", "", some 0, none⟩]⟩

/-- Claim C1, witness: the spec scenario — a prior record with 5 items
survives a run that yields 0 qualifying items. -/
theorem claim_C1_empty_preserve_witness :
    dedupeSortCap (itemsFromFeeds1 0 [c1BadFeed]) = [] ∧
    c1Prev.length = 5 ∧
    publishStep c1Prev 0 [c1BadFeed] = c1Prev := by
  refine ⟨by decide, by decide, ?_⟩
  exact (claim_C1_empty_preserve c1Prev 0 [c1BadFeed]).1 (by decide) (by decide)

/-! ## Clock dependence of the safe-mode pipeline (claim C8) -/

theorem entryDate_indep {t1 t2 : Int} {e : Entry}
    (h : e.isoDate ≠ none ∨ e.pubDate ≠ none) : entryDate t1 e = entryDate t2 e := by
  unfold entryDate
  cases hiso : e.isoDate with
  | some v => rfl
  | none =>
    cases hpub : e.pubDate with
    | some v => rfl
    | none =>
      rcases h with h | h
      · exact absurd hiso h
      · exact absurd hpub h

theorem mkItem2_indep {t1 t2 : Int} {f : Feed} {e : Entry}
    (h : e.isoDate ≠ none ∨ e.pubDate ≠ none) : mkItem2 t1 f e = mkItem2 t2 f e := by
  unfold mkItem2
  rw [@entryDate_indep t1 t2 e h]

theorem filterMapItems_indep {t1 t2 : Int} {f : Feed} :
    ∀ {items : List Entry},
      (∀ e ∈ items, e.isoDate ≠ none ∨ e.pubDate ≠ none) →
      (items.filterMap (fun e =>
          if scoreText e.title (entrySum e) < minScore then none
          else some (mkItem2 t1 f e)))
        = items.filterMap (fun e =>
            if scoreText e.title (entrySum e) < minScore then none
            else some (mkItem2 t2 f e)) := by
  intro items
  induction items with
  | nil => intro _; rfl
  | cons e es ih =>
    intro h
    simp only [List.filterMap_cons]
    by_cases hc : scoreText e.title (entrySum e) < minScore
    · rw [if_pos hc, if_pos hc]
      exact ih (fun x hx => h x (List.mem_cons_of_mem _ hx))
    · rw [if_neg hc, if_neg hc,
        mkItem2_indep (h e (List.mem_cons_self _ _)),
        ih (fun x hx => h x (List.mem_cons_of_mem _ hx))]

theorem itemsFromFeeds2_indep {t1 t2 : Int} :
    ∀ {feeds : List Feed},
      (∀ f ∈ feeds, ∀ e ∈ f.items, e.isoDate ≠ none ∨ e.pubDate ≠ none) →
      itemsFromFeeds2 t1 feeds = itemsFromFeeds2 t2 feeds := by
  intro feeds
  induction feeds with
  | nil => intro _; rfl
  | cons f fs ih =>
    intro h
    unfold itemsFromFeeds2
    simp only [List.flatMap_cons]
    rw [show (f.items.filterMap (fun e =>
        if scoreText e.title (entrySum e) < minScore then none
        else some (mkItem2 t1 f e)))
        = f.items.filterMap (fun e =>
            if scoreText e.title (entrySum e) < minScore then none
            else some (mkItem2 t2 f e))
      from filterMapItems_indep (h f (List.mem_cons_self _ _))]
    have h2 := ih (fun g hg e he => h g (List.mem_cons_of_mem _ hg) e he)
    unfold itemsFromFeeds2 at h2
    rw [h2]

theorem freshFilter_indep {t1 t2 : Int} {feeds : List Feed}
    (hdates : ∀ f ∈ feeds, ∀ e ∈ f.items, e.isoDate ≠ none ∨ e.pubDate ≠ none)
    (hfresh : ∀ f ∈ feeds, ∀ e ∈ f.items,
      withinDaysB t1 (entryDate t1 e) freshDays
        = withinDaysB t2 (entryDate t2 e) freshDays) :
    freshFilter t1 feeds = freshFilter t2 feeds := by
  unfold freshFilter
  rw [itemsFromFeeds2_indep hdates]
  refine List.filter_congr ?_
  intro i hi
  obtain ⟨f, hf, e, he, hsc, rfl⟩ := mem_itemsFromFeeds2.mp hi
  have hpub : (mkItem2 t2 f e).publishedAt = entryDate t2 e := rfl
  rw [hpub]
  rw [show entryDate t2 e = entryDate t1 e from
    entryDate_indep (hdates f hf e he)]
  rw [show withinDaysB t1 (entryDate t1 e) freshDays
      = withinDaysB t2 (entryDate t2 e) freshDays from hfresh f hf e he]
  rw [show entryDate t2 e = entryDate t1 e from
    entryDate_indep (hdates f hf e he)]

/-- Concrete fetched input for the C8 counterexample: one qualifying entry
that carries no publication date, so `publishedAt` falls back to the run
clock. -/
def c8Feed : Feed :=
  ⟨some "F", [⟨"flowmeter", "https://a.com/x", "calibration update", "", none, none⟩]⟩

/-- Claim C8, counterexample: the same fetched input run through the
pipeline at two different clock instants yields different published items
(the dateless entry is stamped with the run clock), refuting byte-identical
outputs for every pair of runs on identical fetched input. -/
theorem claim_C8_idempotence_cex :
    runPipeline 0 [c8Feed] [] ≠ runPipeline 86400000 [c8Feed] [] := by
  decide

/-- Claim C8, amended: the filter/normalize/dedupe/rank stages are a pure
function of the fetched input and the run clock — two runs on identical
fetched input are byte-identical provided every entry carries its own
publication date and each date is on the same side of the freshness window
at both run instants (in particular, two runs at the same instant). -/
theorem claim_C8_idempotence (t1 t2 : Int) (feedsMain feedsFb : List Feed)
    (hdates : ∀ f ∈ feedsMain ++ feedsFb, ∀ e ∈ f.items,
        e.isoDate ≠ none ∨ e.pubDate ≠ none)
    (hfresh : ∀ f ∈ feedsMain ++ feedsFb, ∀ e ∈ f.items,
        withinDaysB t1 (entryDate t1 e) freshDays
          = withinDaysB t2 (entryDate t2 e) freshDays) :
    runPipeline t1 feedsMain feedsFb = runPipeline t2 feedsMain feedsFb := by
  have hmain : freshFilter t1 feedsMain = freshFilter t2 feedsMain :=
    freshFilter_indep
      (fun f hf => hdates f (List.mem_append_left _ hf))
      (fun f hf => hfresh f (List.mem_append_left _ hf))
  have hfb : freshFilter t1 feedsFb = freshFilter t2 feedsFb :=
    freshFilter_indep
      (fun f hf => hdates f (List.mem_append_right _ hf))
      (fun f hf => hfresh f (List.mem_append_right _ hf))
  unfold runPipeline collectAll
  rw [hmain, hfb]

/-- Concrete fetched input for the C8 witness: the same entry but carrying
its own date. -/
def c8DatedFeed : Feed :=
  ⟨some "F", [⟨"flowmeter", "https://a.com/x", "calibration update", "", some 100, none⟩]⟩

/-- Claim C8, witness: with dated input, runs at two different instants
inside the freshness window coincide. -/
theorem claim_C8_idempotence_witness :
    runPipeline 0 [c8DatedFeed] [] = runPipeline 3600000 [c8DatedFeed] [] :=
  claim_C8_idempotence 0 3600000 [c8DatedFeed] [] (by decide) (by decide)

end AsianloopNews

